import Mathlib

/-!
# Verification of the pygenetics evolutionary engine

Shallow embedding of the pygenetics library (population-based stochastic
optimizer).  Scalars are modelled as exact rationals (`ℚ`); all sources of
randomness (the global generator behind `random()`, `uniform(0, 1)`,
`randint` and the parameter sampler/mutator) are externalized as explicit
draw streams `ℕ → ℚ`, threaded through the code with a position counter.

Embedded units:
* `src/pygenetics/member.py`   — `Member`, `Member.calc_fitness`
* `src/pygenetics/utils.py`    — `calc_cdf_vals`, `call_obj_fn`,
  `determine_best_member`, `mutate_params`, `perform_crossover`
* `src/pygenetics/population.py` — `Population.initialize`,
  `Population.next_generation` and their precondition checks
* `bisect.bisect` (Python stdlib, used by `population.py`) — the
  right-biased binary search, embedded as a fuel-structured recursion
* `Parameter` (module `pygenetics/parameter.py`, absent from the sources;
  only its unit tests remain) — modelled from the spec.
-/

/-! ## Member and fitness (src/pygenetics/member.py) -/

/-- `Member.calc_fitness` (member.py lines 40-43):
`1 / (obj_fn_val + 1)` when `obj_fn_val >= 0`, else `1 + abs(obj_fn_val)`. -/
def calc_fitness (v : ℚ) : ℚ :=
  if 0 ≤ v then 1 / (v + 1) else 1 + |v|

/-- A population member: parameter vector, raw objective value, fitness. -/
structure Member where
  params : List ℚ
  obj_fn_val : ℚ
  fitness_score : ℚ
deriving DecidableEq, Repr

/-- `Member.__init__`: stores the vector and value and derives the fitness. -/
def Member.make (params : List ℚ) (v : ℚ) : Member :=
  ⟨params, v, calc_fitness v⟩

/-! ## Parameter — modelled from the spec (parameter.py is not in src/) -/

/-- Modelled from the spec: `Parameter` (module `pygenetics/parameter.py`,
missing from the sources) holds bounds `min_val ≤ max_val` and a `restrict`
flag; the numeric-kind tag is irrelevant to the claims and omitted. -/
structure Param where
  min_val : ℚ
  max_val : ℚ
  restrict : Bool
deriving DecidableEq, Repr

/-- Modelled from the spec: `Parameter.rand_val` returns a value uniformly
distributed in `[min_val, max_val]`; the external draw `d ∈ [0, 1]` chooses
which. -/
def Param.rand_val (p : Param) (d : ℚ) : ℚ :=
  p.min_val + d * (p.max_val - p.min_val)

/-- Modelled from the spec: `Parameter.mutate (value)` returns
`value ± (max_val − min_val) × u` with the sign chosen with equal
probability (`signDraw < 1/2` picks subtraction), clamped into
`[min_val, max_val]` when `restrict` is set. -/
def Param.mutate (p : Param) (value : ℚ) (signDraw uDraw : ℚ) : ℚ :=
  let delta := (p.max_val - p.min_val) * uDraw
  let raw := if signDraw < 1 / 2 then value - delta else value + delta
  if p.restrict then max p.min_val (min p.max_val raw) else raw

/-! ## utils.py -/

/-- The accumulation loop of `calc_cdf_vals` (utils.py lines 18-22):
`cumsum += p; cdf_vals.append(cumsum)` for each selection probability. -/
def cdf_accum : List ℚ → ℚ → List ℚ
  | [], _ => []
  | p :: ps, cumsum => (cumsum + p) :: cdf_accum ps (cumsum + p)

/-- `calc_cdf_vals` (utils.py lines 4-23): normalizes fitness scores by their
sum and returns the running cumulative sums. -/
def calc_cdf_vals (members : List Member) : List ℚ :=
  let fitness_sum := (members.map (fun m => m.fitness_score)).sum
  let selection_probs := members.map (fun m => m.fitness_score / fitness_sum)
  cdf_accum selection_probs 0

/-- `call_obj_fn` (utils.py lines 26-41): returns the pair
`(params, obj_fn(params))`; a raising objective is an `Except.error`. -/
def call_obj_fn {ε : Type} (params : List ℚ)
    (obj_fn : List ℚ → Except ε ℚ) : Except ε (List ℚ × ℚ) :=
  match obj_fn params with
  | .error e => .error e
  | .ok v => .ok (params, v)

/-- The loop of `determine_best_member` (utils.py lines 58-62): fold over
the remaining members, replacing the running best on strictly greater
fitness only. -/
def best_member_loop (best_f best_v : ℚ) (best_p : List ℚ) :
    List Member → ℚ × ℚ × List ℚ
  | [] => (best_f, best_v, best_p)
  | m :: rest =>
    if best_f < m.fitness_score then
      best_member_loop m.fitness_score m.obj_fn_val m.params rest
    else
      best_member_loop best_f best_v best_p rest

/-- `determine_best_member` (utils.py lines 44-63): starts from the first
member and keeps the earliest member of maximal fitness.  (Python raises
`IndexError` on an empty list; the `[]` case below is that unreachable
junk value.) -/
def determine_best_member : List Member → ℚ × ℚ × List ℚ
  | [] => (0, 0, [])
  | m :: rest => best_member_loop m.fitness_score m.obj_fn_val m.params rest

/-- Python stdlib `random.randint(a, b)`: an integer uniform in `[a, b]`
inclusive; the external draw chooses which (clamped into the range). -/
def randint (a b : ℤ) (draw : ℚ) : ℤ :=
  max a (min b ⌊draw⌋)

/-- The per-locus mutation loop of `mutate_params` (utils.py lines 79-85),
with the draw-stream position threaded: the `uniform(0, 1) < p_mutation`
check consumes one draw; a firing mutation consumes two more inside
`Parameter.mutate` (sign choice and magnitude). -/
def mutate_params_loop (ps : List Param) (p_mutation : ℚ) (src : ℕ → ℚ) :
    List ℚ → ℕ → ℕ → List ℚ × ℕ
  | [], _, pos => ([], pos)
  | v :: rest, idx, pos =>
    if src pos < p_mutation then
      let nv := (ps.getD idx ⟨0, 0, true⟩).mutate v (src (pos + 1)) (src (pos + 2))
      let t := mutate_params_loop ps p_mutation src rest (idx + 1) (pos + 3)
      (nv :: t.1, t.2)
    else
      let t := mutate_params_loop ps p_mutation src rest (idx + 1) (pos + 1)
      (v :: t.1, t.2)

/-- `mutate_params` (utils.py lines 66-85). -/
def mutate_params (curr_params : List ℚ) (ps : List Param) (p_mutation : ℚ)
    (src : ℕ → ℚ) (pos : ℕ) : List ℚ × ℕ :=
  mutate_params_loop ps p_mutation src curr_params 0 pos

/-- `perform_crossover` (utils.py lines 88-105):
`cross_pt = randint(1, len(params_1) - 1)`, then exchanges the tails
(`params_1[:cross_pt] + params_2[cross_pt:]` and symmetrically). -/
def perform_crossover (params_1 params_2 : List ℚ) (draw : ℚ) :
    List ℚ × List ℚ :=
  let cross_pt := (randint 1 ((params_1.length : ℤ) - 1) draw).toNat
  (params_1.take cross_pt ++ params_2.drop cross_pt,
   params_2.take cross_pt ++ params_1.drop cross_pt)

/-! ## Python stdlib bisect.bisect (right-biased binary search)

`population.py` selects members via `self._members[bisect(cdf_vals, random())]`.
Python's `bisect.bisect` is `bisect_right`: the loop below is its algorithm
(`while lo < hi: mid = (lo+hi)//2; if x < a[mid]: hi = mid else: lo = mid+1`),
structured on a fuel argument; `hi - lo` shrinks every iteration, so fuel
`a.length` always suffices for the initial range `[0, a.length)`. -/

def bisect_loop (a : List ℚ) (x : ℚ) : ℕ → ℕ → ℕ → ℕ
  | 0, lo, _ => lo
  | fuel + 1, lo, hi =>
    if lo < hi then
      if x < a.getD ((lo + hi) / 2) 0 then
        bisect_loop a x fuel lo ((lo + hi) / 2)
      else
        bisect_loop a x fuel ((lo + hi) / 2 + 1) hi
    else lo

/-- Python `bisect.bisect(a, x)` (= `bisect_right`). -/
def bisect (a : List ℚ) (x : ℚ) : ℕ := bisect_loop a x a.length 0 a.length

/-! ## Selection-index characterizations (claims C3, C10) -/

/-- Stated from the spec's words, for comparison with the code: the smallest
index `i` such that `cdf[i] ≥ r` (`l.length` when none exists). -/
def least_index_ge (a : List ℚ) (x : ℚ) : ℕ :=
  a.findIdx (fun c => decide (x ≤ c))

/-- The smallest index `i` such that `cdf[i] > r` (`l.length` when none
exists) — the semantics Python's `bisect_right` actually implements. -/
def least_index_gt (a : List ℚ) (x : ℚ) : ℕ :=
  a.findIdx (fun c => decide (x < c))

/-! ## Population (src/pygenetics/population.py)

The Population object's mutable state.  The objective function and the
draw streams are passed to the methods explicitly (they are external to
the claims); `num_processes` is modelled as 1 (sequential evaluation —
the parallel path commits results at the same program points). -/

structure Population where
  pop_size : ℕ
  params : List Param
  members : List Member
deriving Repr

/-- The errors `population.py` itself raises (`RuntimeError` at lines
109-112 and 163-166, `ValueError` at lines 168-176). -/
inductive GAError where
  | noParams
  | notInitialized
  | badCrossoverProb
  | badMutationProb
deriving DecidableEq, Repr

/-- Outcome of `initialize` / `next_generation`: normal return, an error
raised by the method's own precondition checks, an exception propagated
from the objective function, or divergence of the mate-resampling loop
(modelled by fuel exhaustion). -/
inductive GAResult (ε : Type) where
  | ok
  | gaError (e : GAError)
  | objError (e : ε)
  | diverge
deriving DecidableEq, Repr

/-- The sequential evaluation loop shared by `initialize` (population.py
lines 124-134) and `next_generation` (lines 210-219): one `call_obj_fn`
per vector, in order; the first raise aborts the batch. -/
def eval_all {ε : Type} (obj_fn : List ℚ → Except ε ℚ) :
    List (List ℚ) → Except ε (List (List ℚ × ℚ))
  | [] => .ok []
  | v :: rest =>
    match call_obj_fn v obj_fn with
    | .error e => .error e
    | .ok pr =>
      match eval_all obj_fn rest with
      | .error e => .error e
      | .ok prs => .ok (pr :: prs)

/-- `params = [p.rand_val for p in self._params]` (population.py line 126),
consuming one draw per parameter starting at `pos`. -/
def sample_vec (src : ℕ → ℚ) : List Param → ℕ → List ℚ
  | [], _ => []
  | prm :: rest, pos => prm.rand_val (src pos) :: sample_vec src rest (pos + 1)

/-- The sampling loop of `initialize` (population.py lines 124-126): one
fresh vector per future member. -/
def sample_vecs (ps : List Param) (src : ℕ → ℚ) : ℕ → ℕ → List (List ℚ)
  | 0, _ => []
  | n + 1, pos => sample_vec src ps pos :: sample_vecs ps src n (pos + ps.length)

/-- `Population.initialize` (population.py lines 104-144), embedded here as `initialize_pop`: raises when no
parameter was added; otherwise clears `self._members` (line 118), samples
and evaluates `pop_size` vectors and, only once the whole batch succeeded,
appends the new members.  The returned Population is the object's state
when the call ends — also when it ends by raising. -/
def Population.initialize_pop {ε : Type} (p : Population)
    (obj_fn : List ℚ → Except ε ℚ) (src : ℕ → ℚ) :
    GAResult ε × Population :=
  if p.params.length = 0 then
    (.gaError .noParams, p)
  else
    let cleared : Population := { p with members := [] }
    match eval_all obj_fn (sample_vecs p.params src p.pop_size 0) with
    | .error e => (.objError e, cleared)
    | .ok results =>
      (.ok, { cleared with
        members := results.map (fun r => Member.make r.1 r.2) })

/-- The mate-resampling loop of `next_generation` (population.py lines
187-189): redraw while the selected mate is the chosen member itself
(object identity = same list index, since every stored Member is a fresh
object).  The fuel models the possibility of divergence: `none` stands for
a loop that did not leave within `fuel` draws. -/
def select_mate_loop (cdf : List ℚ) (chosenIdx : ℕ) (src : ℕ → ℚ) :
    ℕ → ℕ → Option (ℕ × ℕ)
  | 0, _ => none
  | fuel + 1, pos =>
    if bisect cdf (src pos) = chosenIdx then
      select_mate_loop cdf chosenIdx src fuel (pos + 1)
    else
      some (bisect cdf (src pos), pos + 1)

/-- The reproduction loop of `next_generation` (population.py lines
181-204): `while len(new_param_vals) < self._pop_size`, select a member by
`bisect` on the cdf; with `len(self._params) > 1` and a draw below
`p_crossover`, select a distinct mate, cross over and append BOTH mutated
offspring; otherwise append the one mutated vector.  Each iteration grows
the pool by at least one, so outer fuel `pop_size` always suffices; `none`
only reports a diverging mate loop or exhausted fuel. -/
def repro_loop (members : List Member) (ps : List Param) (pop_size : ℕ)
    (cdf : List ℚ) (p_crossover p_mutation : ℚ) (src : ℕ → ℚ)
    (mateFuel : ℕ) : ℕ → ℕ → List (List ℚ) → Option (List (List ℚ))
  | 0, _, acc => if pop_size ≤ acc.length then some acc else none
  | fuel + 1, pos, acc =>
    if pop_size ≤ acc.length then some acc
    else
      let chosen := members.getD (bisect cdf (src pos)) (Member.make [] 0)
      if 1 < ps.length then
        if src (pos + 1) < p_crossover then
          match select_mate_loop cdf (bisect cdf (src pos)) src mateFuel
              (pos + 2) with
          | none => none
          | some (mateIdx, pos2) =>
            let mate := members.getD mateIdx (Member.make [] 0)
            let np := perform_crossover chosen.params mate.params (src pos2)
            let m1 := mutate_params np.1 ps p_mutation src (pos2 + 1)
            let m2 := mutate_params np.2 ps p_mutation src m1.2
            repro_loop members ps pop_size cdf p_crossover p_mutation src
              mateFuel fuel m2.2 (acc ++ [m1.1, m2.1])
        else
          let m1 := mutate_params chosen.params ps p_mutation src (pos + 2)
          repro_loop members ps pop_size cdf p_crossover p_mutation src
            mateFuel fuel m1.2 (acc ++ [m1.1])
      else
        let m1 := mutate_params chosen.params ps p_mutation src (pos + 1)
        repro_loop members ps pop_size cdf p_crossover p_mutation src
          mateFuel fuel m1.2 (acc ++ [m1.1])

/-- `Population.next_generation` (population.py lines 146-230): the three
precondition checks (lines 163-176, raising with the object untouched),
the reproduction loop, the sequential evaluation of every new vector
(lines 210-219, still with `self._members` untouched), and only then the
wholesale replacement of the member list (lines 227-230). -/
def Population.next_generation {ε : Type} (p : Population)
    (obj_fn : List ℚ → Except ε ℚ) (p_crossover p_mutation : ℚ)
    (src : ℕ → ℚ) (mateFuel : ℕ) : GAResult ε × Population :=
  if p.members.length = 0 then
    (.gaError .notInitialized, p)
  else if p_crossover < 0 ∨ 1 < p_crossover then
    (.gaError .badCrossoverProb, p)
  else if p_mutation < 0 ∨ 1 < p_mutation then
    (.gaError .badMutationProb, p)
  else
    match repro_loop p.members p.params p.pop_size
        (calc_cdf_vals p.members) p_crossover p_mutation src mateFuel
        p.pop_size 0 [] with
    | none => (.diverge, p)
    | some new_param_vals =>
      match eval_all obj_fn new_param_vals with
      | .error e => (.objError e, p)
      | .ok results =>
        (.ok, { p with
          members := results.map (fun r => Member.make r.1 r.2) })

/-- The state invariant of claim C7: every stored member's parameter vector
has exactly one entry per Population parameter, and (as holds for every
member the code ever constructs) its fitness score is strictly positive. -/
def PopInv (p : Population) : Prop :=
  ∀ m ∈ p.members, m.params.length = p.params.length ∧ 0 < m.fitness_score

/-! ## Concrete fixtures used by witnesses and counterexamples -/

/-- A deterministic draw stream alternating `0` and `1/2` — all values lie
in `[0, 1)`. -/
def srcAlt : ℕ → ℚ := fun n => if n % 2 = 0 then 0 else 1 / 2

/-- An objective function that always succeeds with value `0`. -/
def objOk : List ℚ → Except ℕ ℚ := fun _ => .ok 0

/-- An objective function that always raises (error code `7`). -/
def objFail : List ℚ → Except ℕ ℚ := fun _ => .error 7

/-- A three-member initialized population with two parameters,
`pop_size = 3`, all fitness scores `1`. -/
def popC1 : Population :=
  ⟨3, [⟨0, 10, true⟩, ⟨0, 10, true⟩],
   [Member.make [0, 0] 0, Member.make [1, 1] 0, Member.make [2, 2] 0]⟩

/-- A one-member initialized population with one parameter and
`pop_size = 2`. -/
def popW : Population := ⟨2, [⟨0, 10, true⟩], [Member.make [5] 0]⟩

/-- A configured-but-never-initialized population (no members). -/
def popEmpty : Population := ⟨2, [⟨0, 1, true⟩], []⟩


lemma bisect_loop_spec (a : List ℚ) (x : ℚ)
    (hmono : ∀ i j, i ≤ j → j < a.length → a.getD i 0 ≤ a.getD j 0) :
    ∀ fuel lo hi, lo ≤ hi → hi ≤ a.length → hi - lo ≤ fuel →
      (∀ j, j < lo → a.getD j 0 ≤ x) →
      (∀ j, hi ≤ j → j < a.length → x < a.getD j 0) →
      lo ≤ bisect_loop a x fuel lo hi ∧ bisect_loop a x fuel lo hi ≤ hi ∧
      (∀ j, j < bisect_loop a x fuel lo hi → a.getD j 0 ≤ x) ∧
      (∀ j, bisect_loop a x fuel lo hi ≤ j → j < a.length →
        x < a.getD j 0) := by
  intro fuel
  induction fuel with
  | zero =>
    intro lo hi h1 h2 h3 hbelow habove
    have : lo = hi := by omega
    subst this
    exact ⟨le_refl _, le_refl _, hbelow, habove⟩
  | succ fuel ih =>
    intro lo hi h1 h2 h3 hbelow habove
    by_cases hlt : lo < hi
    · have hmid1 : lo ≤ (lo + hi) / 2 := by omega
      have hmid2 : (lo + hi) / 2 < hi := by omega
      by_cases hx : x < a.getD ((lo + hi) / 2) 0
      · have hrec := ih lo ((lo + hi) / 2) hmid1 (by omega) (by omega) hbelow
          (fun j hj hjlen => lt_of_lt_of_le hx (hmono _ j hj hjlen))
        rw [bisect_loop, if_pos hlt, if_pos hx]
        exact ⟨hrec.1, by omega, hrec.2.2.1, hrec.2.2.2⟩
      · have hle : a.getD ((lo + hi) / 2) 0 ≤ x := not_lt.mp hx
        have hrec := ih ((lo + hi) / 2 + 1) hi (by omega) h2 (by omega)
          (fun j hj => le_trans
            (hmono j ((lo + hi) / 2) (by omega) (by omega)) hle)
          habove
        rw [bisect_loop, if_pos hlt, if_neg hx]
        exact ⟨by omega, hrec.2.1, hrec.2.2.1, hrec.2.2.2⟩
    · have : lo = hi := by omega
      subst this
      rw [bisect_loop, if_neg hlt]
      exact ⟨le_refl _, le_refl _, hbelow, habove⟩

lemma chain'_getD_mono (a : List ℚ) (hc : List.Chain' (· ≤ ·) a) :
    ∀ i j, i ≤ j → j < a.length → a.getD i 0 ≤ a.getD j 0 := by
  intro i j hij hj
  rcases eq_or_lt_of_le hij with rfl | hlt
  · exact le_refl _
  · have hp := List.chain'_iff_pairwise.mp hc
    have := List.pairwise_iff_getElem.mp hp i j (by omega) hj hlt
    rwa [List.getD_eq_getElem a 0 (by omega), List.getD_eq_getElem a 0 hj]

/-- The characterization of `bisect` on a sorted list: everything strictly
below the returned index is `≤ x`, everything from it on is `> x`. -/
lemma bisect_spec (a : List ℚ) (x : ℚ) (hc : List.Chain' (· ≤ ·) a) :
    bisect a x ≤ a.length ∧
    (∀ j, j < bisect a x → a.getD j 0 ≤ x) ∧
    (∀ j, bisect a x ≤ j → j < a.length → x < a.getD j 0) := by
  have h := bisect_loop_spec a x (chain'_getD_mono a hc) a.length 0 a.length
    (Nat.zero_le _) (le_refl _) (by omega)
    (fun j hj => absurd hj (Nat.not_lt_zero j))
    (fun j hj hjlen => absurd hjlen (by omega))
  exact ⟨h.2.1, h.2.2.1, h.2.2.2⟩

/-! ## Facts about the cumulative distribution -/

lemma cdf_accum_length (ps : List ℚ) (c : ℚ) :
    (cdf_accum ps c).length = ps.length := by
  induction ps generalizing c with
  | nil => simp [cdf_accum]
  | cons p ps ih => simp [cdf_accum, ih]

lemma cdf_accum_chain' (ps : List ℚ) (c : ℚ) (h : ∀ p ∈ ps, 0 ≤ p) :
    List.Chain' (· ≤ ·) (cdf_accum ps c) := by
  induction ps generalizing c with
  | nil => simp [cdf_accum]
  | cons p ps ih =>
    cases ps with
    | nil => simp [cdf_accum]
    | cons q qs =>
      rw [cdf_accum, cdf_accum, List.chain'_cons]
      constructor
      · have : 0 ≤ q := h q (by simp)
        linarith
      · have := ih (c + p) (fun r hr => h r (List.mem_cons_of_mem p hr))
        rwa [cdf_accum] at this

lemma cdf_accum_getLast? (ps : List ℚ) (c : ℚ) (h : ps ≠ []) :
    (cdf_accum ps c).getLast? = some (c + ps.sum) := by
  induction ps generalizing c with
  | nil => exact absurd rfl h
  | cons p ps ih =>
    cases ps with
    | nil => simp [cdf_accum]
    | cons q qs =>
      rw [cdf_accum]
      have hne : q :: qs ≠ [] := by simp
      calc ((c + p) :: cdf_accum (q :: qs) (c + p)).getLast?
          = (cdf_accum (q :: qs) (c + p)).getLast? := by
            rw [cdf_accum]
            exact List.getLast?_cons_cons
        _ = some (c + p + (q :: qs).sum) := ih (c + p) hne
        _ = some (c + (p :: q :: qs).sum) := by
            simp only [List.sum_cons]
            congr 1
            ring

lemma sum_map_div (l : List ℚ) (S : ℚ) :
    (l.map (fun y => y / S)).sum = l.sum / S := by
  induction l with
  | nil => simp
  | cons y ys ih => simp [ih, add_div]

lemma calc_cdf_vals_length (members : List Member) :
    (calc_cdf_vals members).length = members.length := by
  simp [calc_cdf_vals, cdf_accum_length]

lemma fitness_sum_pos (members : List Member) (hne : members ≠ [])
    (hpos : ∀ m ∈ members, 0 < m.fitness_score) :
    0 < (members.map (fun m => m.fitness_score)).sum := by
  apply List.sum_pos
  · intro x hx
    obtain ⟨m, hm, rfl⟩ := List.mem_map.mp hx
    exact hpos m hm
  · simpa using hne

lemma calc_cdf_vals_chain' (members : List Member)
    (hpos : ∀ m ∈ members, 0 < m.fitness_score) :
    List.Chain' (· ≤ ·) (calc_cdf_vals members) := by
  rcases eq_or_ne members [] with rfl | hne
  · simp [calc_cdf_vals, cdf_accum]
  · have hS := fitness_sum_pos members hne hpos
    apply cdf_accum_chain'
    intro p hp
    obtain ⟨m, hm, rfl⟩ := List.mem_map.mp hp
    exact div_nonneg (le_of_lt (hpos m hm)) (le_of_lt hS)

lemma calc_cdf_vals_getLast? (members : List Member) (hne : members ≠ [])
    (hpos : ∀ m ∈ members, 0 < m.fitness_score) :
    (calc_cdf_vals members).getLast? = some 1 := by
  have hS := fitness_sum_pos members hne hpos
  unfold calc_cdf_vals
  rw [cdf_accum_getLast? _ _ (by simpa using hne)]
  congr 1
  have : (members.map (fun m =>
      m.fitness_score / (members.map (fun m => m.fitness_score)).sum)) =
      ((members.map (fun m => m.fitness_score)).map
        (fun y => y / (members.map (fun m => m.fitness_score)).sum)) := by
    rw [List.map_map]
    rfl
  rw [this, sum_map_div, div_self (ne_of_gt hS)]
  ring

lemma getLast?_some_getD (l : List ℚ) (y : ℚ) (h : l.getLast? = some y) :
    l.getD (l.length - 1) 0 = y := by
  induction l with
  | nil => simp at h
  | cons a t ih =>
    cases t with
    | nil =>
      simp only [List.getLast?_singleton, Option.some_inj] at h
      simpa using h
    | cons b t' =>
      rw [List.getLast?_cons_cons] at h
      have := ih h
      simpa [List.getD_cons_succ] using this

/-- On the cdf of a positive-fitness, non-empty member list, `bisect` at any
draw `r ∈ [0, 1)` lands strictly inside the member list. -/
lemma bisect_cdf_lt_length (members : List Member) (hne : members ≠ [])
    (hpos : ∀ m ∈ members, 0 < m.fitness_score) (r : ℚ)
    (hr1 : r < 1) :
    bisect (calc_cdf_vals members) r < members.length := by
  set a := calc_cdf_vals members with ha
  have hchain := calc_cdf_vals_chain' members hpos
  have hlen : a.length = members.length := calc_cdf_vals_length members
  have hlenpos : 0 < a.length := by
    rw [hlen]
    exact List.length_pos.mpr hne
  have hspec := bisect_spec a r hchain
  by_contra hcon
  push_neg at hcon
  rw [← hlen] at hcon
  have hbis : bisect a r = a.length := le_antisymm hspec.1 hcon
  have hlast : a.getD (a.length - 1) 0 = 1 :=
    getLast?_some_getD a 1 (calc_cdf_vals_getLast? members hne hpos)
  have : a.getD (a.length - 1) 0 ≤ r := hspec.2.1 _ (by omega)
  rw [hlast] at this
  linarith

/-- C4: `calc_fitness v` equals `1 / (1 + v)` and lies in `(0, 1]` for
`v ≥ 0`, equals `1 + |v|` and exceeds `1` for `v < 0`, and is strictly
positive for every rational `v`. -/
theorem calc_fitness_spec (v : ℚ) :
    (0 ≤ v → calc_fitness v = 1 / (1 + v) ∧
      0 < calc_fitness v ∧ calc_fitness v ≤ 1) ∧
    (v < 0 → calc_fitness v = 1 + |v| ∧ 1 < calc_fitness v) ∧
    0 < calc_fitness v := by
  unfold calc_fitness
  by_cases h : 0 ≤ v
  · rw [if_pos h]
    have h1 : (0:ℚ) < v + 1 := by linarith
    refine ⟨fun _ => ⟨by ring_nf, div_pos one_pos h1, ?_⟩,
      fun hneg => absurd h (not_le.mpr hneg), div_pos one_pos h1⟩
    rw [div_le_one h1]
    linarith
  · rw [if_neg h]
    push_neg at h
    have habs : |v| = -v := abs_of_neg h
    constructor
    · intro hc
      linarith
    · refine ⟨fun _ => ⟨rfl, ?_⟩, ?_⟩ <;> rw [habs] <;> linarith

/-- C4 witness: the spec evaluated at `v = 3`. -/
theorem calc_fitness_spec_witness :
    calc_fitness 3 = 1 / (1 + 3) ∧ 0 < calc_fitness 3 :=
  ⟨((calc_fitness_spec 3).1 (by norm_num)).1, (calc_fitness_spec 3).2.2⟩

/-- C5: for every non-empty member list with strictly positive fitness
scores, `calc_cdf_vals` returns a non-decreasing list whose last element is
exactly `1` (exact rational arithmetic). -/
theorem calc_cdf_vals_spec (members : List Member) (hne : members ≠ [])
    (hpos : ∀ m ∈ members, 0 < m.fitness_score) :
    List.Chain' (· ≤ ·) (calc_cdf_vals members) ∧
    (calc_cdf_vals members).getLast? = some 1 :=
  ⟨calc_cdf_vals_chain' members hpos, calc_cdf_vals_getLast? members hne hpos⟩

/-- C5 witness: the cdf spec on the two-member list with objective values
`1` and `1` (both fitnesses `1/2`). -/
theorem calc_cdf_vals_spec_witness :
    List.Chain' (· ≤ ·) (calc_cdf_vals [Member.make [0] 1, Member.make [1] 1]) ∧
    (calc_cdf_vals [Member.make [0] 1, Member.make [1] 1]).getLast? =
      some 1 :=
  calc_cdf_vals_spec [Member.make [0] 1, Member.make [1] 1] (by simp)
    (by
      intro m hm
      simp only [List.mem_cons, List.mem_singleton, List.not_mem_nil,
        or_false] at hm
      rcases hm with rfl | rfl <;> norm_num [Member.make, calc_fitness])

lemma findIdx_eq_of (p : ℚ → Bool) (l : List ℚ) (k : ℕ) (hk : k < l.length)
    (hbefore : ∀ j, j < k → p (l.getD j 0) = false)
    (hat : p (l.getD k 0) = true) : l.findIdx p = k := by
  induction l generalizing k with
  | nil => simp at hk
  | cons a t ih =>
    rw [List.findIdx_cons]
    cases k with
    | zero =>
      simp only [List.getD_cons_zero] at hat
      simp [hat]
    | succ k' =>
      have h0 : p a = false := by
        have := hbefore 0 (Nat.succ_pos k')
        simpa using this
      simp only [h0, cond_false]
      have := ih k' (by simpa using hk)
        (fun j hj => by simpa using hbefore (j + 1) (by omega))
        (by simpa using hat)
      omega

/-- C10: selection indexing is in bounds — for every non-empty member list
with strictly positive fitness scores and every draw `r ∈ [0, 1)`, the
index `bisect (calc_cdf_vals members) r` used by `next_generation` to look
a member up is strictly less than the number of members. -/
theorem bisect_cdf_in_bounds (members : List Member) (hne : members ≠ [])
    (hpos : ∀ m ∈ members, 0 < m.fitness_score) (r : ℚ)
    (hr0 : 0 ≤ r) (hr1 : r < 1) :
    bisect (calc_cdf_vals members) r < members.length :=
  bisect_cdf_lt_length members hne hpos r hr1

/-- C10 witness: in bounds on a concrete two-member list at `r = 1/2`. -/
theorem bisect_cdf_in_bounds_witness :
    bisect (calc_cdf_vals [Member.make [0] 1, Member.make [1] 1]) (1/2) <
      2 := by
  have h := bisect_cdf_in_bounds [Member.make [0] 1, Member.make [1] 1]
    (by simp)
    (by
      intro m hm
      simp only [List.mem_cons, List.mem_singleton, List.not_mem_nil,
        or_false] at hm
      rcases hm with rfl | rfl <;> norm_num [Member.make, calc_fitness])
    (1/2) (by norm_num) (by norm_num)
  simpa using h

/-- C3 counterexample: with two members of equal fitness the cdf is
`[1/2, 1]`; at the draw `r = 1/2` the code (`bisect` = `bisect_right`)
selects the member at index `1`, while the smallest index `i` with
`cdf[i] ≥ r` is `0` — a different member. -/
theorem selection_ne_least_index_ge :
    bisect (calc_cdf_vals [Member.make [0] 1, Member.make [1] 1]) (1/2) = 1 ∧
    least_index_ge (calc_cdf_vals [Member.make [0] 1, Member.make [1] 1])
      (1/2) = 0 ∧
    [Member.make [0] 1, Member.make [1] 1].getD
        (bisect (calc_cdf_vals [Member.make [0] 1, Member.make [1] 1]) (1/2))
        (Member.make [] 0) ≠
      [Member.make [0] 1, Member.make [1] 1].getD
        (least_index_ge (calc_cdf_vals [Member.make [0] 1, Member.make [1] 1])
          (1/2)) (Member.make [] 0) := by
  have hcdf : calc_cdf_vals [Member.make [0] 1, Member.make [1] 1] =
      [1/2, 1] := by
    norm_num [calc_cdf_vals, Member.make, calc_fitness, cdf_accum]
  have h1 : bisect [(1:ℚ)/2, 1] (1/2) = 1 := by
    norm_num [bisect, bisect_loop]
  have h2 : least_index_ge [(1:ℚ)/2, 1] (1/2) = 0 := by
    norm_num [least_index_ge, List.findIdx_cons]
  rw [hcdf, h1, h2]
  refine ⟨rfl, rfl, ?_⟩
  simp [Member.make]

/-- C3 amended: the member selected by `next_generation` is the one at the
smallest index `i` such that `cdf[i] > r` (strict inequality — Python's
`bisect` is right-biased; for draws `r` equal to no cdf entry this
coincides with the spec's `cdf[i] ≥ r`). -/
theorem selection_eq_least_index_gt (members : List Member)
    (hne : members ≠ []) (hpos : ∀ m ∈ members, 0 < m.fitness_score)
    (r : ℚ) (hr0 : 0 ≤ r) (hr1 : r < 1) :
    bisect (calc_cdf_vals members) r =
      least_index_gt (calc_cdf_vals members) r := by
  set a := calc_cdf_vals members with ha
  have hchain := calc_cdf_vals_chain' members hpos
  have hspec := bisect_spec a r hchain
  have hlt : bisect a r < a.length := by
    rw [calc_cdf_vals_length members]
    exact bisect_cdf_lt_length members hne hpos r hr1
  refine (findIdx_eq_of _ a (bisect a r) hlt ?_ ?_).symm
  · intro j hj
    have := hspec.2.1 j hj
    simpa using this
  · have := hspec.2.2 (bisect a r) (le_refl _) hlt
    simpa using this

/-- C3 amended witness: on the two-member list at `r = 1/2` both sides
evaluate to index `1`. -/
theorem selection_eq_least_index_gt_witness :
    bisect (calc_cdf_vals [Member.make [0] 1, Member.make [1] 1]) (1/2) =
      least_index_gt (calc_cdf_vals [Member.make [0] 1, Member.make [1] 1])
        (1/2) :=
  selection_eq_least_index_gt [Member.make [0] 1, Member.make [1] 1]
    (by simp)
    (by
      intro m hm
      simp only [List.mem_cons, List.mem_singleton, List.not_mem_nil,
        or_false] at hm
      rcases hm with rfl | rfl <;> norm_num [Member.make, calc_fitness])
    (1/2) (by norm_num) (by norm_num)

/-! ## determine_best_member (claim C8) -/

lemma best_member_loop_spec (ms : List Member) :
    ∀ bf bv bp,
      bf ≤ (best_member_loop bf bv bp ms).1 ∧
      (∀ m ∈ ms, m.fitness_score ≤ (best_member_loop bf bv bp ms).1) ∧
      (best_member_loop bf bv bp ms = (bf, bv, bp) ∨
        ∃ i, i < ms.length ∧
          best_member_loop bf bv bp ms =
            ((ms.getD i (Member.make [] 0)).fitness_score,
             (ms.getD i (Member.make [] 0)).obj_fn_val,
             (ms.getD i (Member.make [] 0)).params) ∧
          bf < (ms.getD i (Member.make [] 0)).fitness_score ∧
          ∀ j, j < i → (ms.getD j (Member.make [] 0)).fitness_score <
            (ms.getD i (Member.make [] 0)).fitness_score) := by
  induction ms with
  | nil =>
    intro bf bv bp
    exact ⟨le_refl _, by simp [best_member_loop], Or.inl rfl⟩
  | cons m rest ih =>
    intro bf bv bp
    by_cases hlt : bf < m.fitness_score
    · have hloop : best_member_loop bf bv bp (m :: rest) =
          best_member_loop m.fitness_score m.obj_fn_val m.params rest := by
        rw [best_member_loop, if_pos hlt]
      obtain ⟨A, B, C⟩ := ih m.fitness_score m.obj_fn_val m.params
      rw [hloop]
      refine ⟨le_of_lt (lt_of_lt_of_le hlt A), ?_, ?_⟩
      · intro m' hm'
        rcases List.mem_cons.mp hm' with rfl | hmem
        · exact A
        · exact B m' hmem
      · rcases C with heq | ⟨i, hi, heq, hgt, hearlier⟩
        · refine Or.inr ⟨0, by simp, ?_, ?_, ?_⟩
          · simpa [List.getD_cons_zero] using heq
          · simpa [List.getD_cons_zero] using hlt
          · intro j hj
            omega
        · refine Or.inr ⟨i + 1, by simpa using hi, ?_, ?_, ?_⟩
          · simpa [List.getD_cons_succ] using heq
          · simp only [List.getD_cons_succ]
            exact lt_trans hlt hgt
          · intro j hj
            cases j with
            | zero =>
              simpa [List.getD_cons_zero, List.getD_cons_succ] using hgt
            | succ j' =>
              simp only [List.getD_cons_succ]
              exact hearlier j' (by omega)
    · have hle : m.fitness_score ≤ bf := not_lt.mp hlt
      have hloop : best_member_loop bf bv bp (m :: rest) =
          best_member_loop bf bv bp rest := by
        rw [best_member_loop, if_neg hlt]
      obtain ⟨A, B, C⟩ := ih bf bv bp
      rw [hloop]
      refine ⟨A, ?_, ?_⟩
      · intro m' hm'
        rcases List.mem_cons.mp hm' with rfl | hmem
        · exact le_trans hle A
        · exact B m' hmem
      · rcases C with heq | ⟨i, hi, heq, hgt, hearlier⟩
        · exact Or.inl heq
        · refine Or.inr ⟨i + 1, by simpa using hi, ?_, ?_, ?_⟩
          · simpa [List.getD_cons_succ] using heq
          · simp only [List.getD_cons_succ]
            exact hgt
          · intro j hj
            cases j with
            | zero =>
              simp only [List.getD_cons_zero, List.getD_cons_succ]
              exact lt_of_le_of_lt hle hgt
            | succ j' =>
              simp only [List.getD_cons_succ]
              exact hearlier j' (by omega)

lemma getD_mem_of_lt (l : List Member) (i : ℕ) (hi : i < l.length) :
    l.getD i (Member.make [] 0) ∈ l := by
  rw [List.getD_eq_getElem l _ hi]
  exact List.getElem_mem hi

/-- C8: `determine_best_member` returns the (fitness, value, params) triple
of a member with maximal fitness, the earliest among ties, and on the
spec's concrete three-member example it returns the first triple. -/
theorem determine_best_member_spec (members : List Member)
    (hne : members ≠ []) :
    (∃ i, i < members.length ∧
      determine_best_member members =
        ((members.getD i (Member.make [] 0)).fitness_score,
         (members.getD i (Member.make [] 0)).obj_fn_val,
         (members.getD i (Member.make [] 0)).params) ∧
      (∀ j, j < members.length →
        (members.getD j (Member.make [] 0)).fitness_score ≤
          (members.getD i (Member.make [] 0)).fitness_score) ∧
      (∀ j, j < i → (members.getD j (Member.make [] 0)).fitness_score <
        (members.getD i (Member.make [] 0)).fitness_score)) ∧
    determine_best_member
        [Member.make [0, 0, 0] 0, Member.make [1, 1, 1] 1,
         Member.make [2, 2, 2] 2] = (1, 0, [0, 0, 0]) := by
  constructor
  · match members, hne with
    | m :: rest, _ =>
      obtain ⟨A, B, C⟩ :=
        best_member_loop_spec rest m.fitness_score m.obj_fn_val m.params
      rcases C with heq | ⟨i, hi, heq, hgt, hearlier⟩
      · refine ⟨0, by simp, ?_, ?_, ?_⟩
        · simpa [determine_best_member, List.getD_cons_zero] using heq
        · intro j hj
          cases j with
          | zero => simp
          | succ j' =>
            simp only [List.getD_cons_zero, List.getD_cons_succ]
            have hj' : j' < rest.length := by simpa using hj
            have : (best_member_loop m.fitness_score m.obj_fn_val m.params
                rest).1 = m.fitness_score := by rw [heq]
            rw [← this]
            exact B _ (getD_mem_of_lt rest j' hj')
        · intro j hj
          omega
      · refine ⟨i + 1, by simpa using hi, ?_, ?_, ?_⟩
        · simpa [determine_best_member, List.getD_cons_succ] using heq
        · intro j hj
          cases j with
          | zero =>
            simp only [List.getD_cons_zero, List.getD_cons_succ]
            exact le_of_lt hgt
          | succ j' =>
            simp only [List.getD_cons_succ]
            have hj' : j' < rest.length := by simpa using hj
            have hmax : (best_member_loop m.fitness_score m.obj_fn_val
                m.params rest).1 =
                (rest.getD i (Member.make [] 0)).fitness_score := by rw [heq]
            rw [← hmax]
            exact B _ (getD_mem_of_lt rest j' hj')
        · intro j hj
          cases j with
          | zero =>
            simp only [List.getD_cons_zero, List.getD_cons_succ]
            exact hgt
          | succ j' =>
            simp only [List.getD_cons_succ]
            exact hearlier j' (by omega)
  · norm_num [determine_best_member, best_member_loop, Member.make,
      calc_fitness]

/-- C8 witness: the argmax spec applied to the spec's concrete example. -/
theorem determine_best_member_spec_witness :
    (∃ i, i <
      ([Member.make [0, 0, 0] 0, Member.make [1, 1, 1] 1,
        Member.make [2, 2, 2] 2] : List Member).length ∧
      determine_best_member
        [Member.make [0, 0, 0] 0, Member.make [1, 1, 1] 1,
         Member.make [2, 2, 2] 2] =
        (([Member.make [0, 0, 0] 0, Member.make [1, 1, 1] 1,
           Member.make [2, 2, 2] 2].getD i
            (Member.make [] 0)).fitness_score,
         ([Member.make [0, 0, 0] 0, Member.make [1, 1, 1] 1,
           Member.make [2, 2, 2] 2].getD i (Member.make [] 0)).obj_fn_val,
         ([Member.make [0, 0, 0] 0, Member.make [1, 1, 1] 1,
           Member.make [2, 2, 2] 2].getD i (Member.make [] 0)).params) ∧
      (∀ j, j <
        ([Member.make [0, 0, 0] 0, Member.make [1, 1, 1] 1,
          Member.make [2, 2, 2] 2] : List Member).length →
        (([Member.make [0, 0, 0] 0, Member.make [1, 1, 1] 1,
           Member.make [2, 2, 2] 2].getD j
            (Member.make [] 0)).fitness_score ≤
          ([Member.make [0, 0, 0] 0, Member.make [1, 1, 1] 1,
            Member.make [2, 2, 2] 2].getD i
             (Member.make [] 0)).fitness_score)) ∧
      (∀ j, j < i →
        (([Member.make [0, 0, 0] 0, Member.make [1, 1, 1] 1,
           Member.make [2, 2, 2] 2].getD j
            (Member.make [] 0)).fitness_score <
          ([Member.make [0, 0, 0] 0, Member.make [1, 1, 1] 1,
            Member.make [2, 2, 2] 2].getD i
             (Member.make [] 0)).fitness_score))) ∧
    determine_best_member
        [Member.make [0, 0, 0] 0, Member.make [1, 1, 1] 1,
         Member.make [2, 2, 2] 2] = (1, 0, [0, 0, 0]) :=
  determine_best_member_spec
    [Member.make [0, 0, 0] 0, Member.make [1, 1, 1] 1,
     Member.make [2, 2, 2] 2] (by simp)

/-! ## perform_crossover (claim C6) -/

/-- C6: for equal-length vectors with `n ≥ 2`, `perform_crossover` picks a
locus `k ∈ [1, n−1]` and returns `(A[0:k] + B[k:], B[0:k] + A[k:])`; on
`([0,0], [1,1])` the only valid locus is `k = 1`, giving `([0,1], [1,0])`
whatever the draw. -/
theorem perform_crossover_spec (A B : List ℚ) (draw : ℚ)
    (hA : 2 ≤ A.length) (hB : B.length = A.length) :
    (∃ k, 1 ≤ k ∧ k ≤ A.length - 1 ∧
      perform_crossover A B draw =
        (A.take k ++ B.drop k, B.take k ++ A.drop k)) ∧
    perform_crossover [0, 0] [1, 1] draw = ([0, 1], [1, 0]) := by
  constructor
  · refine ⟨(randint 1 ((A.length : ℤ) - 1) draw).toNat, ?_, ?_, rfl⟩
    · unfold randint
      omega
    · unfold randint
      omega
  · have hk : randint 1 1 draw = 1 := by
      unfold randint
      omega
    simp [perform_crossover, hk]

/-- C6 witness: the crossover spec at `A = [0,0]`, `B = [1,1]`, draw `0`. -/
theorem perform_crossover_spec_witness :
    (∃ k, 1 ≤ k ∧ k ≤ ([0, 0] : List ℚ).length - 1 ∧
      perform_crossover [0, 0] [1, 1] 0 =
        (([0, 0] : List ℚ).take k ++ ([1, 1] : List ℚ).drop k,
         ([1, 1] : List ℚ).take k ++ ([0, 0] : List ℚ).drop k)) ∧
    perform_crossover [0, 0] [1, 1] 0 = ([0, 1], [1, 0]) :=
  perform_crossover_spec [0, 0] [1, 1] 0 (by norm_num) (by norm_num)

/-! ## Supporting lemmas for the Population claims -/

lemma calc_fitness_pos (v : ℚ) : 0 < calc_fitness v := by
  unfold calc_fitness
  by_cases h : 0 ≤ v
  · rw [if_pos h]
    apply div_pos one_pos
    linarith
  · rw [if_neg h]
    push_neg at h
    have : |v| = -v := abs_of_neg h
    rw [this]
    linarith

lemma mutate_params_loop_length (ps : List Param) (pm : ℚ) (src : ℕ → ℚ) :
    ∀ curr idx pos,
      (mutate_params_loop ps pm src curr idx pos).1.length = curr.length := by
  intro curr
  induction curr with
  | nil => intro idx pos; simp [mutate_params_loop]
  | cons v rest ih =>
    intro idx pos
    rw [mutate_params_loop]
    by_cases h : src pos < pm
    · simp only [if_pos h, List.length_cons]
      rw [ih]
    · simp only [if_neg h, List.length_cons]
      rw [ih]

lemma mutate_params_length (curr : List ℚ) (ps : List Param) (pm : ℚ)
    (src : ℕ → ℚ) (pos : ℕ) :
    (mutate_params curr ps pm src pos).1.length = curr.length :=
  mutate_params_loop_length ps pm src curr 0 pos

lemma perform_crossover_length (A B : List ℚ) (d : ℚ) (n : ℕ)
    (hA : A.length = n) (hB : B.length = n) :
    (perform_crossover A B d).1.length = n ∧
    (perform_crossover A B d).2.length = n := by
  unfold perform_crossover
  constructor <;>
    simp only [List.length_append, List.length_take, List.length_drop,
      hA, hB] <;> omega

lemma sample_vec_length (src : ℕ → ℚ) :
    ∀ ps pos, (sample_vec src ps pos).length = ps.length := by
  intro ps
  induction ps with
  | nil => intro pos; simp [sample_vec]
  | cons prm rest ih =>
    intro pos
    rw [sample_vec]
    simp [ih]

lemma sample_vecs_mem_length (ps : List Param) (src : ℕ → ℚ) :
    ∀ n pos v, v ∈ sample_vecs ps src n pos → v.length = ps.length := by
  intro n
  induction n with
  | zero => intro pos v hv; simp [sample_vecs] at hv
  | succ n ih =>
    intro pos v hv
    rw [sample_vecs] at hv
    rcases List.mem_cons.mp hv with rfl | hmem
    · exact sample_vec_length src ps pos
    · exact ih _ v hmem

lemma eval_all_ok_fst {ε : Type} (obj_fn : List ℚ → Except ε ℚ) :
    ∀ vecs results, eval_all obj_fn vecs = .ok results →
      results.map Prod.fst = vecs := by
  intro vecs
  induction vecs with
  | nil =>
    intro results h
    rw [eval_all] at h
    injection h with h
    rw [← h]
    simp
  | cons v rest ih =>
    intro results h
    rw [eval_all] at h
    unfold call_obj_fn at h
    cases hobj : obj_fn v with
    | error e => rw [hobj] at h; simp at h
    | ok y =>
      rw [hobj] at h
      simp only at h
      cases hrest : eval_all obj_fn rest with
      | error e => rw [hrest] at h; simp at h
      | ok prs =>
        rw [hrest] at h
        injection h with h
        rw [← h]
        simp only [List.map_cons]
        rw [ih prs hrest]

lemma eval_all_ok_length {ε : Type} (obj_fn : List ℚ → Except ε ℚ)
    (vecs : List (List ℚ)) (results : List (List ℚ × ℚ))
    (h : eval_all obj_fn vecs = .ok results) :
    results.length = vecs.length := by
  have := eval_all_ok_fst obj_fn vecs results h
  calc results.length = (results.map Prod.fst).length := by simp
    _ = vecs.length := by rw [this]

lemma select_mate_loop_some_bisect (cdf : List ℚ) (ci : ℕ) (src : ℕ → ℚ) :
    ∀ fuel pos idx pos2,
      select_mate_loop cdf ci src fuel pos = some (idx, pos2) →
      ∃ q, idx = bisect cdf (src q) := by
  intro fuel
  induction fuel with
  | zero => intro pos idx pos2 h; simp [select_mate_loop] at h
  | succ fuel ih =>
    intro pos idx pos2 h
    rw [select_mate_loop] at h
    by_cases hb : bisect cdf (src pos) = ci
    · rw [if_pos hb] at h
      exact ih _ _ _ h
    · rw [if_neg hb] at h
      injection h with h
      exact ⟨pos, (congrArg Prod.fst h).symm⟩

lemma repro_loop_some_size (members : List Member) (ps : List Param)
    (pop_size : ℕ) (cdf : List ℚ) (pc pm : ℚ) (src : ℕ → ℚ)
    (mateFuel : ℕ) :
    ∀ fuel pos acc vals, acc.length ≤ pop_size + 1 →
      repro_loop members ps pop_size cdf pc pm src mateFuel fuel pos acc =
        some vals →
      pop_size ≤ vals.length ∧ vals.length ≤ pop_size + 1 := by
  intro fuel
  induction fuel with
  | zero =>
    intro pos acc vals hacc h
    rw [repro_loop] at h
    by_cases hge : pop_size ≤ acc.length
    · rw [if_pos hge] at h
      injection h with h
      subst h
      exact ⟨hge, hacc⟩
    · rw [if_neg hge] at h
      exact absurd h (by simp)
  | succ fuel ih =>
    intro pos acc vals hacc h
    rw [repro_loop] at h
    by_cases hge : pop_size ≤ acc.length
    · rw [if_pos hge] at h
      injection h with h
      subst h
      exact ⟨hge, hacc⟩
    · rw [if_neg hge] at h
      have hlt : acc.length < pop_size := not_le.mp hge
      by_cases hps : 1 < ps.length
      · rw [if_pos hps] at h
        by_cases hcr : src (pos + 1) < pc
        · rw [if_pos hcr] at h
          cases hmate : select_mate_loop cdf (bisect cdf (src pos)) src
              mateFuel (pos + 2) with
          | none => rw [hmate] at h; simp at h
          | some pr =>
            rw [hmate] at h
            simp only at h
            exact ih _ _ _ (by simp; omega) h
        · rw [if_neg hcr] at h
          exact ih _ _ _ (by simp; omega) h
      · rw [if_neg hps] at h
        exact ih _ _ _ (by simp; omega) h

lemma repro_loop_some_mem_length (members : List Member) (ps : List Param)
    (pop_size : ℕ) (pc pm : ℚ) (src : ℕ → ℚ) (mateFuel : ℕ)
    (hne : members ≠ [])
    (hmem : ∀ m ∈ members, m.params.length = ps.length ∧
      0 < m.fitness_score)
    (hsrc : ∀ n, src n < 1) :
    ∀ fuel pos acc vals, (∀ v ∈ acc, v.length = ps.length) →
      repro_loop members ps pop_size (calc_cdf_vals members) pc pm src
        mateFuel fuel pos acc = some vals →
      ∀ v ∈ vals, v.length = ps.length := by
  have hpos : ∀ m ∈ members, 0 < m.fitness_score :=
    fun m hm => (hmem m hm).2
  have hchosen : ∀ q, (members.getD (bisect (calc_cdf_vals members) (src q))
      (Member.make [] 0)).params.length = ps.length := by
    intro q
    have hidx := bisect_cdf_lt_length members hne hpos (src q) (hsrc q)
    exact (hmem _ (getD_mem_of_lt members _ hidx)).1
  intro fuel
  induction fuel with
  | zero =>
    intro pos acc vals hacc h
    rw [repro_loop] at h
    by_cases hge : pop_size ≤ acc.length
    · rw [if_pos hge] at h
      injection h with h
      subst h
      exact hacc
    · rw [if_neg hge] at h
      exact absurd h (by simp)
  | succ fuel ih =>
    intro pos acc vals hacc h
    rw [repro_loop] at h
    by_cases hge : pop_size ≤ acc.length
    · rw [if_pos hge] at h
      injection h with h
      subst h
      exact hacc
    · rw [if_neg hge] at h
      by_cases hps : 1 < ps.length
      · rw [if_pos hps] at h
        by_cases hcr : src (pos + 1) < pc
        · rw [if_pos hcr] at h
          cases hmate : select_mate_loop (calc_cdf_vals members)
              (bisect (calc_cdf_vals members) (src pos)) src mateFuel
              (pos + 2) with
          | none => rw [hmate] at h; simp at h
          | some pr =>
            rw [hmate] at h
            simp only at h
            obtain ⟨q, hq⟩ := select_mate_loop_some_bisect
              (calc_cdf_vals members) _ src mateFuel (pos + 2) pr.1 pr.2
              (by rw [hmate])
            have hmate_len : (members.getD pr.1
                (Member.make [] 0)).params.length = ps.length := by
              rw [hq]
              exact hchosen q
            have hcross := perform_crossover_length
              (members.getD (bisect (calc_cdf_vals members) (src pos))
                (Member.make [] 0)).params
              (members.getD pr.1 (Member.make [] 0)).params
              (src pr.2) ps.length (hchosen pos) hmate_len
            refine ih _ _ _ ?_ h
            intro v hv
            rcases List.mem_append.mp hv with hv | hv
            · exact hacc v hv
            · rcases List.mem_cons.mp hv with rfl | hv
              · rw [mutate_params_length]
                exact hcross.1
              · rcases List.mem_cons.mp hv with rfl | hv
                · rw [mutate_params_length]
                  exact hcross.2
                · simp at hv
        · rw [if_neg hcr] at h
          refine ih _ _ _ ?_ h
          intro v hv
          rcases List.mem_append.mp hv with hv | hv
          · exact hacc v hv
          · rcases List.mem_cons.mp hv with rfl | hv
            · rw [mutate_params_length]
              exact hchosen pos
            · simp at hv
      · rw [if_neg hps] at h
        refine ih _ _ _ ?_ h
        intro v hv
        rcases List.mem_append.mp hv with hv | hv
        · exact hacc v hv
        · rcases List.mem_cons.mp hv with rfl | hv
          · rw [mutate_params_length]
            exact hchosen pos
          · simp at hv

/-! ## Claims C1, C2, C7, C9 -/

/-- C1 counterexample: with `pop_size = 3`, two parameters and
`p_crossover = 1`, every loop iteration appends two crossover offspring,
so a successful `next_generation` ends with `4` members — neither `0` nor
`pop_size`. -/
theorem next_generation_overshoot :
    (popC1.next_generation objOk 1 0 srcAlt 2).1 = .ok ∧
    popC1.pop_size = 3 ∧
    (popC1.next_generation objOk 1 0 srcAlt 2).2.members.length = 4 ∧
    (popC1.next_generation objOk 1 0 srcAlt 2).2.members.length ≠
      popC1.pop_size := by
  norm_num [popC1, objOk, srcAlt, Population.next_generation, repro_loop,
    select_mate_loop, bisect, bisect_loop, calc_cdf_vals, cdf_accum,
    Member.make, calc_fitness, mutate_params, mutate_params_loop,
    perform_crossover, randint, eval_all, call_obj_fn]

/-- C1 amended: after every successful `next_generation` call the member
list contains at least `pop_size` and at most `pop_size + 1` members
(partial completion is impossible; the crossover step may overshoot the
target by exactly one). -/
theorem next_generation_size {ε : Type} (p : Population)
    (obj_fn : List ℚ → Except ε ℚ) (pc pm : ℚ) (src : ℕ → ℚ) (mf : ℕ)
    (h : (p.next_generation obj_fn pc pm src mf).1 = .ok) :
    p.pop_size ≤ (p.next_generation obj_fn pc pm src mf).2.members.length ∧
    (p.next_generation obj_fn pc pm src mf).2.members.length ≤
      p.pop_size + 1 := by
  by_cases h1 : p.members.length = 0
  · simp only [Population.next_generation, if_pos h1] at h
    exact absurd h (by simp)
  by_cases h2 : pc < 0 ∨ 1 < pc
  · simp only [Population.next_generation, if_neg h1, if_pos h2] at h
    exact absurd h (by simp)
  by_cases h3 : pm < 0 ∨ 1 < pm
  · simp only [Population.next_generation, if_neg h1, if_neg h2,
      if_pos h3] at h
    exact absurd h (by simp)
  simp only [Population.next_generation, if_neg h1, if_neg h2,
    if_neg h3] at h ⊢
  cases hrep : repro_loop p.members p.params p.pop_size
      (calc_cdf_vals p.members) pc pm src mf p.pop_size 0 [] with
  | none => rw [hrep] at h; simp at h
  | some vals =>
    rw [hrep] at h
    dsimp only at h ⊢
    cases heval : eval_all obj_fn vals with
    | error e => rw [heval] at h; simp at h
    | ok results =>
      dsimp only
      simp only [List.length_map]
      have hsize := repro_loop_some_size p.members p.params p.pop_size
        (calc_cdf_vals p.members) pc pm src mf p.pop_size 0 [] vals
        (by simp) hrep
      have hlen := eval_all_ok_length obj_fn vals results heval
      omega

/-- C1 witness: a successful single-parameter run with `pop_size = 2`
lands in the `[pop_size, pop_size + 1]` window. -/
theorem next_generation_size_witness :
    popW.pop_size ≤
      (popW.next_generation objOk 0 0 srcAlt 1).2.members.length ∧
    (popW.next_generation objOk 0 0 srcAlt 1).2.members.length ≤
      popW.pop_size + 1 :=
  next_generation_size popW objOk 0 0 srcAlt 1
    (by
      norm_num [popW, objOk, srcAlt, Population.next_generation, repro_loop,
        select_mate_loop, bisect, bisect_loop, calc_cdf_vals, cdf_accum,
        Member.make, calc_fitness, mutate_params, mutate_params_loop,
        eval_all, call_obj_fn])

/-- C2 counterexample: `initialize()` clears the member list before
evaluating, so when the objective raises during a re-initialization the
members do NOT remain at their pre-call value — they are left empty. -/
theorem initialize_not_atomic :
    (popW.initialize_pop objFail srcAlt).1 = .objError 7 ∧
    popW.members ≠ [] ∧
    (popW.initialize_pop objFail srcAlt).2.members = [] ∧
    (popW.initialize_pop objFail srcAlt).2.members ≠ popW.members := by
  norm_num [popW, objFail, srcAlt, Population.initialize_pop, eval_all,
    call_obj_fn, sample_vecs, sample_vec, Member.make]

/-- C2 amended: objective-function errors are propagated by both methods;
`next_generation` leaves the whole Population state at its pre-call value
(members are replaced only after the entire evaluation batch succeeds),
while a failing `initialize` leaves the member list empty — its pre-call
value only when it was already empty. -/
theorem eval_error_state {ε : Type} (p : Population)
    (obj_fn : List ℚ → Except ε ℚ) (pc pm : ℚ) (src : ℕ → ℚ) (mf : ℕ)
    (e : ε) (srcI : ℕ → ℚ) :
    ((p.next_generation obj_fn pc pm src mf).1 = .objError e →
      (p.next_generation obj_fn pc pm src mf).2 = p) ∧
    ((p.initialize_pop obj_fn srcI).1 = .objError e →
      (p.initialize_pop obj_fn srcI).2.members = []) := by
  constructor
  · intro h
    by_cases h1 : p.members.length = 0
    · simp only [Population.next_generation, if_pos h1]
    by_cases h2 : pc < 0 ∨ 1 < pc
    · simp only [Population.next_generation, if_neg h1, if_pos h2]
    by_cases h3 : pm < 0 ∨ 1 < pm
    · simp only [Population.next_generation, if_neg h1, if_neg h2,
        if_pos h3]
    simp only [Population.next_generation, if_neg h1, if_neg h2,
      if_neg h3] at h ⊢
    cases hrep : repro_loop p.members p.params p.pop_size
        (calc_cdf_vals p.members) pc pm src mf p.pop_size 0 [] with
    | none => rfl
    | some vals =>
      rw [hrep] at h
      dsimp only at h ⊢
      cases heval : eval_all obj_fn vals with
      | error e' => rfl
      | ok results => rw [heval] at h; simp at h
  · intro h
    by_cases h0 : p.params.length = 0
    · simp only [Population.initialize_pop, if_pos h0] at h
      exact absurd h (by simp)
    simp only [Population.initialize_pop, if_neg h0] at h ⊢
    cases heval : eval_all obj_fn (sample_vecs p.params srcI p.pop_size 0)
        with
    | error e' => rfl
    | ok results => rw [heval] at h; simp at h

/-- C2 witness: the atomicity statement at a concrete failing run. -/
theorem eval_error_state_witness :
    (popW.next_generation objFail 0 0 srcAlt 1).2 = popW ∧
    (popW.initialize_pop objFail srcAlt).2.members = [] :=
  ⟨(eval_error_state popW objFail 0 0 srcAlt 1 7 srcAlt).1
    (by
      norm_num [popW, objFail, srcAlt, Population.next_generation,
        repro_loop, select_mate_loop, bisect, bisect_loop, calc_cdf_vals,
        cdf_accum, Member.make, calc_fitness, mutate_params,
        mutate_params_loop, eval_all, call_obj_fn]),
   (eval_error_state popW objFail 0 0 srcAlt 1 7 srcAlt).2
    (by
      norm_num [popW, objFail, srcAlt, Population.initialize_pop, eval_all,
        call_obj_fn, sample_vecs, sample_vec])⟩

/-- C7: `mutate_params` and `perform_crossover` map length-`n` vectors to
length-`n` vectors; consequently every member's `params` length equals the
number of Parameters after a successful `initialize()`, and a successful
`next_generation()` (with draws `< 1`, as `random()` guarantees) preserves
that invariant; neither method changes the parameter list. -/
theorem params_length_invariant (ε : Type) :
    (∀ (curr : List ℚ) (ps : List Param) (pm : ℚ) (src : ℕ → ℚ) (pos : ℕ),
      (mutate_params curr ps pm src pos).1.length = curr.length) ∧
    (∀ (A B : List ℚ) (d : ℚ) (n : ℕ), A.length = n → B.length = n →
      (perform_crossover A B d).1.length = n ∧
      (perform_crossover A B d).2.length = n) ∧
    (∀ (p : Population) (obj_fn : List ℚ → Except ε ℚ) (src : ℕ → ℚ),
      (p.initialize_pop obj_fn src).1 = .ok →
      PopInv (p.initialize_pop obj_fn src).2 ∧
      (p.initialize_pop obj_fn src).2.params = p.params) ∧
    (∀ (p : Population) (obj_fn : List ℚ → Except ε ℚ) (pc pm : ℚ)
      (src : ℕ → ℚ) (mf : ℕ), PopInv p → (∀ n, src n < 1) →
      (p.next_generation obj_fn pc pm src mf).1 = .ok →
      PopInv (p.next_generation obj_fn pc pm src mf).2 ∧
      (p.next_generation obj_fn pc pm src mf).2.params = p.params) := by
  refine ⟨mutate_params_length, perform_crossover_length, ?_, ?_⟩
  · intro p obj_fn src h
    by_cases h0 : p.params.length = 0
    · simp only [Population.initialize_pop, if_pos h0] at h
      exact absurd h (by simp)
    simp only [Population.initialize_pop, if_neg h0] at h ⊢
    cases heval : eval_all obj_fn (sample_vecs p.params src p.pop_size 0)
        with
    | error e => rw [heval] at h; simp at h
    | ok results =>
      dsimp only
      constructor
      · intro m hm
        simp only [List.mem_map] at hm
        obtain ⟨r, hr, rfl⟩ := hm
        constructor
        · have hfst : r.1 ∈ results.map Prod.fst :=
            List.mem_map_of_mem _ hr
          rw [eval_all_ok_fst obj_fn _ results heval] at hfst
          exact sample_vecs_mem_length p.params src p.pop_size 0 r.1 hfst
        · exact calc_fitness_pos r.2
      · rfl
  · intro p obj_fn pc pm src mf hInv hsrc h
    by_cases h1 : p.members.length = 0
    · simp only [Population.next_generation, if_pos h1] at h
      exact absurd h (by simp)
    by_cases h2 : pc < 0 ∨ 1 < pc
    · simp only [Population.next_generation, if_neg h1, if_pos h2] at h
      exact absurd h (by simp)
    by_cases h3 : pm < 0 ∨ 1 < pm
    · simp only [Population.next_generation, if_neg h1, if_neg h2,
        if_pos h3] at h
      exact absurd h (by simp)
    simp only [Population.next_generation, if_neg h1, if_neg h2,
      if_neg h3] at h ⊢
    cases hrep : repro_loop p.members p.params p.pop_size
        (calc_cdf_vals p.members) pc pm src mf p.pop_size 0 [] with
    | none => rw [hrep] at h; simp at h
    | some vals =>
      rw [hrep] at h
      dsimp only at h ⊢
      cases heval : eval_all obj_fn vals with
      | error e => rw [heval] at h; simp at h
      | ok results =>
        dsimp only
        constructor
        · intro m hm
          simp only [List.mem_map] at hm
          obtain ⟨r, hr, rfl⟩ := hm
          have hne : p.members ≠ [] := by
            intro hc
            rw [hc] at h1
            simp at h1
          have hfst : r.1 ∈ results.map Prod.fst :=
            List.mem_map_of_mem _ hr
          rw [eval_all_ok_fst obj_fn _ results heval] at hfst
          refine ⟨?_, calc_fitness_pos r.2⟩
          exact repro_loop_some_mem_length p.members p.params p.pop_size
            pc pm src mf hne hInv hsrc p.pop_size 0 [] vals (by simp) hrep
            r.1 hfst
        · rfl

/-- C7 witness: the invariant after a concrete successful
`next_generation` run. -/
theorem params_length_invariant_witness :
    PopInv (popW.next_generation objOk 0 0 srcAlt 1).2 ∧
    (popW.next_generation objOk 0 0 srcAlt 1).2.params = popW.params :=
  (params_length_invariant ℕ).2.2.2 popW objOk 0 0 srcAlt 1
    (by
      intro m hm
      simp only [popW, List.mem_singleton] at hm
      subst hm
      exact ⟨by norm_num [Member.make, popW],
        by norm_num [Member.make, calc_fitness]⟩)
    (by
      intro n
      unfold srcAlt
      split <;> norm_num)
    (by
      norm_num [popW, objOk, srcAlt, Population.next_generation, repro_loop,
        select_mate_loop, bisect, bisect_loop, calc_cdf_vals, cdf_accum,
        Member.make, calc_fitness, mutate_params, mutate_params_loop,
        eval_all, call_obj_fn])

/-- C9: `next_generation` raises one of its own sequencing/configuration
errors iff the member list is empty (initialize() never ran) or a
probability lies outside `[0, 1]`; in that case the Population state is
unchanged.  (Objective-function exceptions are a separate outcome,
propagated as `objError` — see C2.) -/
theorem next_generation_error_iff (ε : Type) (p : Population)
    (obj_fn : List ℚ → Except ε ℚ) (pc pm : ℚ) (src : ℕ → ℚ) (mf : ℕ) :
    ((∃ e, (p.next_generation obj_fn pc pm src mf).1 = .gaError e) ↔
      (p.members = [] ∨ pc < 0 ∨ 1 < pc ∨ pm < 0 ∨ 1 < pm)) ∧
    (∀ e, (p.next_generation obj_fn pc pm src mf).1 = .gaError e →
      (p.next_generation obj_fn pc pm src mf).2 = p) := by
  by_cases h1 : p.members.length = 0
  · refine ⟨⟨fun _ => Or.inl (List.length_eq_zero.mp h1), fun _ =>
      ⟨.notInitialized, by simp only [Population.next_generation,
        if_pos h1]⟩⟩,
      fun e _ => by simp only [Population.next_generation, if_pos h1]⟩
  by_cases h2 : pc < 0 ∨ 1 < pc
  · refine ⟨⟨fun _ => ?_, fun _ => ⟨.badCrossoverProb,
      by simp only [Population.next_generation, if_neg h1, if_pos h2]⟩⟩,
      fun e _ =>
        by simp only [Population.next_generation, if_neg h1, if_pos h2]⟩
    rcases h2 with hc | hc
    · exact Or.inr (Or.inl hc)
    · exact Or.inr (Or.inr (Or.inl hc))
  by_cases h3 : pm < 0 ∨ 1 < pm
  · refine ⟨⟨fun _ => ?_, fun _ => ⟨.badMutationProb,
      by simp only [Population.next_generation, if_neg h1, if_neg h2,
        if_pos h3]⟩⟩,
      fun e _ => by simp only [Population.next_generation, if_neg h1,
        if_neg h2, if_pos h3]⟩
    rcases h3 with hc | hc
    · exact Or.inr (Or.inr (Or.inr (Or.inl hc)))
    · exact Or.inr (Or.inr (Or.inr (Or.inr hc)))
  have hnone : ∀ e, (p.next_generation obj_fn pc pm src mf).1 ≠
      .gaError e := by
    intro e he
    simp only [Population.next_generation, if_neg h1, if_neg h2,
      if_neg h3] at he
    cases hrep : repro_loop p.members p.params p.pop_size
        (calc_cdf_vals p.members) pc pm src mf p.pop_size 0 [] with
    | none => rw [hrep] at he; simp at he
    | some vals =>
      rw [hrep] at he
      dsimp only at he
      cases heval : eval_all obj_fn vals with
      | error e' => rw [heval] at he; simp at he
      | ok results => rw [heval] at he; simp at he
  refine ⟨⟨fun hex => ?_, fun hcond => ?_⟩, fun e he =>
    absurd he (hnone e)⟩
  · obtain ⟨e, he⟩ := hex
    exact absurd he (hnone e)
  · rcases hcond with hc | hc | hc | hc | hc
    · exact absurd (by simp [hc] : p.members.length = 0) h1
    · exact absurd (Or.inl hc) h2
    · exact absurd (Or.inr hc) h2
    · exact absurd (Or.inl hc) h3
    · exact absurd (Or.inr hc) h3

/-- C9 witness: calling `next_generation` on a configured-but-uninitialized
population raises and leaves the state unchanged. -/
theorem next_generation_error_iff_witness :
    (∃ e, (popEmpty.next_generation objOk 0 0 srcAlt 1).1 = .gaError e) ∧
    (popEmpty.next_generation objOk 0 0 srcAlt 1).2 = popEmpty :=
  ⟨(next_generation_error_iff ℕ popEmpty objOk 0 0 srcAlt 1).1.mpr
      (Or.inl rfl),
   (next_generation_error_iff ℕ popEmpty objOk 0 0 srcAlt 1).2
      .notInitialized
      (by norm_num [popEmpty, Population.next_generation])⟩
